import Mathlib

/-!
Verification of the GPU async conversion patterns
(`backends/gpu/lib/passes/gpu_async_patterns.cc`).

The file embeds the pass's data model and rewrite rules as executable Lean
definitions and proves the spec's claims about them:

* the block-scanning Region Outliner (`NestLegalOpsInConversionAsyncExecPattern`);
* the byte-size computation (`GetTypeSizeBytes`);
* the view / reinterpret-cast folding rules;
* the alloc / dealloc rewriting rules;
* the dynamic legality rule for `tfrt.call`.
-/

namespace GpuAsync

/-- An IR operation in the model.  Operands are value ids; moving an
operation between blocks never changes its operand list.  `prim` is an
operation without regions; `regionHost` is an operation hosting one region
with one block; `asyncExec` is the `tfrt_gpu_conversion.async.execute`
operation, hosting a single block (its terminator is kept implicit). -/
inductive Op where
  | prim (id : Nat) (operands : List Nat)
  | regionHost (id : Nat) (operands : List Nat) (body : List Op)
  | asyncExec (body : List Op)

/-- One left-to-right scan of a block's operation list, mirroring the loop of
`NestLegalOpsInConversionAsyncExecPattern::matchAndRewriteBlock`.
`L` is `target.isLegal`; `run` is the sequence of legal operations between
`legal_begin` and the current position (empty iff `legal_begin == nullptr`).
Returns the rewritten operation list together with the number of extractions
performed; the C++ `LogicalResult` is `success` iff that number is nonzero. -/
def scanGo (L : Op → Bool) : List Op → List Op → List Op × Nat
  | run, [] => (run, 0)
  | run, op :: rest =>
    if L op then
      scanGo L (run ++ [op]) rest
    else if run.isEmpty then
      (op :: (scanGo L [] rest).1, (scanGo L [] rest).2)
    else
      (Op.asyncExec run :: op :: (scanGo L [] rest).1, (scanGo L [] rest).2 + 1)

/-- `matchAndRewriteBlock` applied to a whole block: scan from an empty run. -/
def matchAndRewriteBlock (L : Op → Bool) (ops : List Op) : List Op × Nat :=
  scanGo L [] ops

/-- Written from the spec's description of the outlining result: every
maximal contiguous run of legal operations that is immediately followed by an
illegal operation is replaced, at its original position, by exactly one
async-execute region containing that run in order; a trailing legal run is
left in place. -/
def specOutline (L : Op → Bool) : List Op → List Op
  | [] => []
  | op :: rest =>
    if L op then
      if (rest.dropWhile L).isEmpty then op :: rest
      else Op.asyncExec (op :: rest.takeWhile L) :: specOutline L (rest.dropWhile L)
    else op :: specOutline L rest
termination_by ops => ops.length
decreasing_by
  · have key : ∀ l : List Op, (l.dropWhile L).length ≤ l.length := by
      intro l
      induction l with
      | nil => simp
      | cons a l ih =>
        rw [List.dropWhile_cons]
        by_cases h : L a = true
        · simp only [h, if_true]
          exact le_trans ih (by simp)
        · simp [h]
    simpa using Nat.lt_succ_of_le (key rest)
  · simp

mutual

/-- Post-order walk of one operation's nested blocks, mirroring the
`func_op.walk` of `NestLegalOpsInConversionAsyncExecPattern::matchAndRewrite`:
nested blocks are visited innermost-first; a block whose host operation is an
async-execute region is skipped (`WalkResult::skip`) and is not scanned; every
other block is scanned by the block rewrite.  Returns the rewritten operation
and the number of extractions performed below it. -/
def walkOp (L : Op → Bool) : Op → Op × Nat
  | .prim i os => (.prim i os, 0)
  | .regionHost i os body =>
    (.regionHost i os (scanGo L [] (walkBlockOps L body).1).1,
      (walkBlockOps L body).2 + (scanGo L [] (walkBlockOps L body).1).2)
  | .asyncExec body =>
    (.asyncExec (walkBlockOps L body).1, (walkBlockOps L body).2)

/-- Walks each operation of a block in order (without scanning the block
itself at this level). -/
def walkBlockOps (L : Op → Bool) : List Op → List Op × Nat
  | [] => ([], 0)
  | op :: rest =>
    ((walkOp L op).1 :: (walkBlockOps L rest).1,
      (walkOp L op).2 + (walkBlockOps L rest).2)

end

/-- A function operation: a single entry block. -/
structure FuncOp where
  body : List Op

/-- Number of extractions performed by one top-level Region Outliner
invocation on a function: those in descendant blocks plus those in the
function's own body block. -/
def funcExtractions (L : Op → Bool) (f : FuncOp) : Nat :=
  (walkBlockOps L f.body).2 + (scanGo L [] (walkBlockOps L f.body).1).2

/-- `NestLegalOpsInConversionAsyncExecPattern::matchAndRewrite`: walk all
blocks of the function (innermost first), scanning every block whose host
operation is not an async-execute region; the function's own body block is
scanned last.  The returned `Bool` is the C++ `LogicalResult` (`true` =
`success`), success iff some block scan performed an extraction. -/
def matchAndRewriteFunc (L : Op → Bool) (f : FuncOp) : FuncOp × Bool :=
  (⟨(scanGo L [] (walkBlockOps L f.body).1).1⟩, decide (0 < funcExtractions L f))

/-- Constructor tag and id of an operation, ignoring nested bodies. -/
def topSig : Op → Nat × Nat
  | .prim i _ => (0, i)
  | .regionHost i _ _ => (1, i)
  | .asyncExec _ => (2, 0)

/-- `Outlines i o`: `o` is obtained from `i` by replacing some contiguous
nonempty runs of `i` by freshly created async-execute regions containing
exactly those runs, in order.  Every operation of `i` occurs in `o` exactly
once, verbatim (same operands), in its original relative order; nothing is
copied, duplicated or erased. -/
inductive Outlines : List Op → List Op → Prop where
  | nil : Outlines [] []
  | keep {i o : List Op} (a : Op) : Outlines i o → Outlines (a :: i) (a :: o)
  | extract {i o : List Op} (run : List Op) : run ≠ [] → Outlines i o →
      Outlines (run ++ i) (Op.asyncExec run :: o)

mutual

/-- `OpMoved a b`: the walk rewrote operation `a` into `b` without touching
`a` itself: kind, id and operand list are unchanged, and each nested block
was only rewritten according to `BlockMoved`. -/
inductive OpMoved : Op → Op → Prop where
  | prim (i : Nat) (os : List Nat) : OpMoved (.prim i os) (.prim i os)
  | regionHost (i : Nat) (os : List Nat) {b b2 : List Op} :
      BlockMoved b b2 → OpMoved (.regionHost i os b) (.regionHost i os b2)
  | asyncExec {b b2 : List Op} :
      OpsMoved b b2 → OpMoved (.asyncExec b) (.asyncExec b2)

/-- Elementwise `OpMoved` on a sequence of operations: same operations, in
the same order, each rewritten only inside its own nested blocks. -/
inductive OpsMoved : List Op → List Op → Prop where
  | nil : OpsMoved [] []
  | cons {a b : Op} {i o : List Op} :
      OpMoved a b → OpsMoved i o → OpsMoved (a :: i) (b :: o)

/-- `BlockMoved i o`: the pass rewrote block contents `i` into `o` by
rewriting each operation in place (`OpMoved`) and moving some contiguous
nonempty runs into freshly created async-execute regions; no operation is
copied, duplicated or erased, and the relative order is preserved. -/
inductive BlockMoved : List Op → List Op → Prop where
  | nil : BlockMoved [] []
  | keep {a b : Op} {i o : List Op} :
      OpMoved a b → BlockMoved i o → BlockMoved (a :: i) (b :: o)
  | extract {src dst : List Op} {i o : List Op} : dst ≠ [] → OpsMoved src dst →
      BlockMoved i o → BlockMoved (src ++ i) (Op.asyncExec dst :: o)

end

/-- An MLIR type, as inspected by the pass: integer and float scalars
(`isIntOrFloat`), statically shaped composite types (`ShapedType`, with its
element type and static element count), complex types, and every other type
(for example `!tfrt_gpu.buffer` or `index`). -/
inductive MType where
  | int (width : Nat)
  | float (width : Nat)
  | shaped (elem : MType) (numElements : Nat)
  | complex (elem : MType)
  | other
deriving DecidableEq

/-- `GetTypeSizeBytes`.  The C++ function returns `unsigned` (32 bits), so
every result is reduced modulo `2 ^ 32`; reaching `llvm_unreachable` (which
aborts the compilation) is modelled as `none`.  The checks happen in source
order: shaped types first, then `isIntOrFloat`, then complex. -/
def GetTypeSizeBytes : MType → Option Nat
  | .shaped elem n => (GetTypeSizeBytes elem).map (fun s => s * n % 2 ^ 32)
  | .int w => some ((w + 7) / 8 % 2 ^ 32)
  | .float w => some ((w + 7) / 8 % 2 ^ 32)
  | .complex elem => (GetTypeSizeBytes elem).map (fun s => s * 2 % 2 ^ 32)
  | .other => none

/-- The type is one of the three kinds the spec names: scalar (int/float),
composite (shaped), or complex. -/
def isThreeKind : MType → Bool
  | .other => false
  | _ => true

/-- The types whose byte size the computation can actually reach: scalars,
and shaped/complex types built recursively over such types. -/
inductive SizedType : MType → Prop where
  | int (w : Nat) : SizedType (.int w)
  | float (w : Nat) : SizedType (.float w)
  | shaped {t : MType} (n : Nat) : SizedType t → SizedType (.shaped t n)
  | complex {t : MType} : SizedType t → SizedType (.complex t)

/-- A converted IR value, as inspected by the folding rules: its id, whether
its converted type is `!tfrt_gpu.buffer`, and, when the value is produced by
an `arith::ConstantIndexOp`, that constant. -/
structure Value where
  id : Nat
  isBuffer : Bool
  definingConstIndex : Option Int
deriving DecidableEq

/-- The data of a `memref.view` operation reaching `FoldMemrefViewPattern`:
the adaptor's converted source value, the adaptor's size operands, the
converted `byte_shift` operand, and the two memref types whose byte sizes
the pattern compares (`view_op.getType()` and `view_op.source().getType()`). -/
structure ViewOp where
  source : Value
  sizes : List Value
  byteShift : Value
  dstType : MType
  srcType : MType
deriving DecidableEq

/-- Outcome of `FoldMemrefViewPattern::matchAndRewrite`: a match failure, a
fold (all uses replaced by the given value), a rewrite into a
`tfrt_gpu.mem.view` taking the source buffer, a ui64 cast of the byte shift,
and the destination byte size, or a fatal abort inside `GetTypeSizeBytes`. -/
inductive ViewOutcome where
  | matchFailure (msg : String)
  | folded (replacement : Value)
  | replacedWithMemView (source : Value) (castOperand : Value) (sizeBytes : Nat)
  | fatal
deriving DecidableEq

def ViewOutcome.isMatchFailure : ViewOutcome → Bool
  | .matchFailure _ => true
  | _ => false

/-- `FoldMemrefViewPattern::matchAndRewrite`. -/
def foldMemrefView (op : ViewOp) : ViewOutcome :=
  if op.source.isBuffer = false then .matchFailure "expected BufferType source"
  else if op.sizes.isEmpty = false then .matchFailure "expected no sizes"
  else
    match GetTypeSizeBytes op.dstType, GetTypeSizeBytes op.srcType with
    | some dst, some src =>
      if op.byteShift.definingConstIndex = some 0 ∧ src = dst then
        .folded op.source
      else
        .replacedWithMemView op.source op.byteShift dst
    | _, _ => .fatal

/-- The data of a `memref.reinterpret_cast` operation reaching
`FoldMemrefReinterpretCastPattern`: the adaptor's converted source, the
dynamic offset operands, and the `static_offsets` integer attributes. -/
structure ReinterpretCastOp where
  source : Value
  offsets : List Value
  staticOffsets : List Int
deriving DecidableEq

/-- Outcome of `FoldMemrefReinterpretCastPattern::matchAndRewrite`. -/
inductive CastOutcome where
  | matchFailure (msg : String)
  | folded (replacement : Value)
deriving DecidableEq

/-- `FoldMemrefReinterpretCastPattern::matchAndRewrite`. -/
def foldMemrefReinterpretCast (op : ReinterpretCastOp) : CastOutcome :=
  if op.source.isBuffer = false then .matchFailure "expected BufferType source"
  else if !op.offsets.isEmpty || op.staticOffsets.any (fun a => a != 0) then
    .matchFailure "expected static zero offsets"
  else .folded op.source

/-- A `tfrt.call` operation as inspected by the legality rule: its operand
types and result types. -/
structure CallOp where
  operandTypes : List MType
  resultTypes : List MType

/-- The dynamic legality rule registered for `tfrt::compiler::CallOp` in
`populateGpuAsyncConversionPatterns`: `op->getNumResults() == 0`. -/
def callOpIsLegal (op : CallOp) : Bool :=
  op.resultTypes.length == 0

/-- The operations involved in the alloc/dealloc rewriting rules.
`memrefAlloc`/`memrefAlloca`/`memrefDealloc` are the generic operations;
`gpuAlloc`/`gpuDealloc` are the target-model primitives (`mlir::gpu::AllocOp`
and `mlir::gpu::DeallocOp`); `otherOp` is any other operation. -/
inductive MemOp where
  | memrefAlloc (resultType : MType)
  | memrefAlloca (resultType : MType)
  | memrefDealloc (memref : Value)
  | gpuAlloc (resultType : MType)
      (asyncDependencies dynamicSizes symbolOperands : List Value)
  | gpuDealloc (hasAsyncToken : Bool) (asyncDependencies : List Value)
      (memref : Value)
  | otherOp (id : Nat)
deriving DecidableEq

/-- `RewriteMemrefAllocPattern::matchAndRewrite` (for both `memref.alloc`
and `memref.alloca`) and `RewriteMemrefDeallocPattern::matchAndRewrite`:
each generic operation is replaced by the corresponding target-model
primitive; the patterns do not match any other operation. -/
def applyAllocDeallocPatterns : MemOp → MemOp
  | .memrefAlloc ty => .gpuAlloc ty [] [] []
  | .memrefAlloca ty => .gpuAlloc ty [] [] []
  | .memrefDealloc b => .gpuDealloc false [] b
  | op => op

/-- One driver pass of the alloc/dealloc patterns over a block: each
operation is rewritten (at most) once. -/
def allocDeallocPass (ops : List MemOp) : List MemOp :=
  ops.map applyAllocDeallocPatterns

/-- Whether an operation is a still-unrewritten generic alloc/alloca/dealloc. -/
def MemOp.isGenericForm : MemOp → Bool
  | .memrefAlloc _ => true
  | .memrefAlloca _ => true
  | .memrefDealloc _ => true
  | _ => false

/- ===================== theorems ===================== -/

theorem takeWhile_all_append {L : Op → Bool} {run : List Op}
    (hrun : ∀ x ∈ run, L x = true) {b : Op} (hb : L b = false) (rest : List Op) :
    (run ++ b :: rest).takeWhile L = run := by
  induction run with
  | nil => simp [List.takeWhile_cons, hb]
  | cons a run ih =>
    have ha : L a = true := hrun a (List.mem_cons_self a run)
    simp only [List.cons_append, List.takeWhile_cons, ha, if_true]
    rw [ih (fun x hx => hrun x (List.mem_cons_of_mem a hx))]

theorem dropWhile_all_append {L : Op → Bool} {run : List Op}
    (hrun : ∀ x ∈ run, L x = true) {b : Op} (hb : L b = false) (rest : List Op) :
    (run ++ b :: rest).dropWhile L = b :: rest := by
  induction run with
  | nil => simp [List.dropWhile_cons, hb]
  | cons a run ih =>
    have ha : L a = true := hrun a (List.mem_cons_self a run)
    simp only [List.cons_append, List.dropWhile_cons, ha, if_true]
    exact ih (fun x hx => hrun x (List.mem_cons_of_mem a hx))

theorem dropWhile_all_nil {L : Op → Bool} {ops : List Op}
    (h : ∀ x ∈ ops, L x = true) : ops.dropWhile L = [] := by
  induction ops with
  | nil => simp
  | cons a ops ih =>
    simp only [List.dropWhile_cons, h a (List.mem_cons_self a ops), if_true]
    exact ih (fun x hx => h x (List.mem_cons_of_mem a hx))

theorem specOutline_all_legal {L : Op → Bool} {ops : List Op}
    (h : ∀ x ∈ ops, L x = true) : specOutline L ops = ops := by
  cases ops with
  | nil => rw [specOutline]
  | cons op rest =>
    have hop : L op = true := h op (List.mem_cons_self op rest)
    have hrest : ∀ x ∈ rest, L x = true := fun x hx => h x (List.mem_cons_of_mem op hx)
    rw [specOutline]
    simp [hop, dropWhile_all_nil hrest]

theorem specOutline_run_boundary {L : Op → Bool} {run : List Op}
    (hrun : ∀ x ∈ run, L x = true) {b : Op} (hb : L b = false) (rest : List Op) :
    specOutline L (run ++ b :: rest) =
      (if run.isEmpty then [] else [Op.asyncExec run]) ++ b :: specOutline L rest := by
  cases run with
  | nil =>
    simp only [List.nil_append, List.isEmpty_nil, if_true]
    rw [specOutline]
    simp [hb]
  | cons a run' =>
    have ha : L a = true := hrun a (List.mem_cons_self a run')
    have hrun' : ∀ x ∈ run', L x = true := fun x hx => hrun x (List.mem_cons_of_mem a hx)
    simp only [List.cons_append]
    rw [specOutline]
    rw [dropWhile_all_append hrun' hb rest, takeWhile_all_append hrun' hb rest]
    simp only [ha, if_true, List.isEmpty_cons, List.cons_append, List.nil_append]
    rw [specOutline]
    simp [hb]

theorem scanGo_eq_specOutline (L : Op → Bool) (ops : List Op) :
    ∀ run, (∀ x ∈ run, L x = true) →
      (scanGo L run ops).1 = specOutline L (run ++ ops) := by
  induction ops with
  | nil =>
    intro run hrun
    rw [scanGo]
    simp [specOutline_all_legal hrun]
  | cons op rest ih =>
    intro run hrun
    by_cases hop : L op = true
    · rw [scanGo]
      simp only [hop, if_true]
      rw [ih (run ++ [op]) (by
        intro x hx
        rcases List.mem_append.mp hx with h | h
        · exact hrun x h
        · simp at h
          simp [h, hop])]
      simp
    · have hop' : L op = false := by
        simp at hop
        exact hop
      rw [specOutline_run_boundary hrun hop' rest]
      rw [scanGo]
      simp only [hop', if_false, Bool.false_eq_true]
      cases run with
      | nil =>
        simp only [List.isEmpty_nil, if_true, List.nil_append]
        rw [ih [] (by simp)]
        simp
      | cons a run' =>
        simp only [List.isEmpty_cons, if_false]
        rw [ih [] (by simp)]
        simp

/-- C1: one Region Outliner scan of a block replaces every maximal contiguous
run of legal operations that is immediately followed by an illegal operation
by exactly one freshly created async-execute region at the run's original
position, containing exactly that run in its original order, and leaves a
trailing legal run (one that reaches the end of the block without a following
illegal operation) in place, un-outlined: the scan's output coincides with
the spec-side description `specOutline`. -/
theorem outliner_block_matches_spec (L : Op → Bool) (ops : List Op) :
    (matchAndRewriteBlock L ops).1 = specOutline L ops := by
  rw [matchAndRewriteBlock, scanGo_eq_specOutline L ops [] (by simp)]
  rfl

theorem scanGo_count_zero (L : Op → Bool) (ops : List Op) :
    ∀ run, (scanGo L run ops).2 = 0 → (scanGo L run ops).1 = run ++ ops := by
  induction ops with
  | nil =>
    intro run _
    rw [scanGo]
    simp
  | cons op rest ih =>
    intro run h
    by_cases hop : L op = true
    · rw [scanGo] at h ⊢
      simp only [hop, if_true] at h ⊢
      rw [ih _ h]
      simp
    · have hop' : L op = false := by
        simp at hop
        exact hop
      rw [scanGo] at h ⊢
      simp only [hop', if_false, Bool.false_eq_true] at h ⊢
      cases run with
      | nil =>
        simp only [List.isEmpty_nil, if_true] at h ⊢
        rw [ih [] h]
        simp
      | cons a run' =>
        simp only [List.isEmpty_cons, if_false] at h
        exact absurd h (Nat.succ_ne_zero _)

mutual

theorem walkOp_count_zero (L : Op → Bool) (op : Op)
    (h : (walkOp L op).2 = 0) : (walkOp L op).1 = op := by
  cases op with
  | prim i os => simp [walkOp]
  | regionHost i os body =>
    simp only [walkOp] at h ⊢
    have h1 : (walkBlockOps L body).2 = 0 := by omega
    have h2 : (scanGo L [] (walkBlockOps L body).1).2 = 0 := by omega
    rw [walkBlockOps_count_zero L body h1] at h2 ⊢
    rw [scanGo_count_zero L body [] h2]
    simp

  | asyncExec body =>
    simp only [walkOp] at h ⊢
    rw [walkBlockOps_count_zero L body h]

theorem walkBlockOps_count_zero (L : Op → Bool) (ops : List Op)
    (h : (walkBlockOps L ops).2 = 0) : (walkBlockOps L ops).1 = ops := by
  cases ops with
  | nil => simp [walkBlockOps]
  | cons op rest =>
    simp only [walkBlockOps] at h ⊢
    have h1 : (walkOp L op).2 = 0 := by omega
    have h2 : (walkBlockOps L rest).2 = 0 := by omega
    rw [walkOp_count_zero L op h1, walkBlockOps_count_zero L rest h2]

end

/-- C4: a top-level Region Outliner invocation on a function reports success
iff at least one extraction occurred in some scanned block of the function
(descendant blocks included), and when it reports failure the whole function
is left exactly as it was — no block is partially modified. -/
theorem outliner_func_success_iff (L : Op → Bool) (f : FuncOp) :
    ((matchAndRewriteFunc L f).2 = true ↔ 0 < funcExtractions L f) ∧
    ((matchAndRewriteFunc L f).2 = false → (matchAndRewriteFunc L f).1 = f) := by
  constructor
  · simp [matchAndRewriteFunc]
  · intro h
    simp only [matchAndRewriteFunc, decide_eq_false_iff_not, Nat.not_lt,
      Nat.le_zero] at h
    have h1 : (walkBlockOps L f.body).2 = 0 := by
      have hh := h
      unfold funcExtractions at hh
      omega
    have h2 : (scanGo L [] (walkBlockOps L f.body).1).2 = 0 := by
      have hh := h
      unfold funcExtractions at hh
      omega
    simp only [matchAndRewriteFunc]
    rw [walkBlockOps_count_zero L f.body h1] at h2 ⊢
    rw [scanGo_count_zero L f.body [] h2]
    rfl

/-- Witness for C4 at a function whose only operation is illegal: the
invocation reports failure and returns the function unchanged. -/
theorem outliner_func_success_iff_witness :
    (matchAndRewriteFunc (fun _ => false) ⟨[Op.prim 0 []]⟩).2 = false ∧
    (matchAndRewriteFunc (fun _ => false) ⟨[Op.prim 0 []]⟩).1 = ⟨[Op.prim 0 []]⟩ := by
  have h : (matchAndRewriteFunc (fun _ => false) ⟨[Op.prim 0 []]⟩).2 = false := by
    simp [matchAndRewriteFunc, funcExtractions, walkBlockOps, walkOp, scanGo]
  exact ⟨h, (outliner_func_success_iff (fun _ => false) ⟨[Op.prim 0 []]⟩).2 h⟩

theorem walkBlockOps_eq_map (L : Op → Bool) (ops : List Op) :
    (walkBlockOps L ops).1 = ops.map (fun op => (walkOp L op).1) := by
  induction ops with
  | nil => simp [walkBlockOps]
  | cons op rest ih => simp [walkBlockOps, ih]

theorem walkOp_topSig (L : Op → Bool) (op : Op) :
    topSig (walkOp L op).1 = topSig op := by
  cases op <;> simp [walkOp, topSig]

/-- C5: the Region Outliner never scans a block whose host operation is an
async-execute region: walking such an operation only rewrites each body
operation in its place (an elementwise map — nothing is wrapped, inserted,
reordered or removed at this level), and every body operation keeps its kind
and id, so no operation already inside an async-execute region's body is
moved into, or wrapped by, another async-execute region by the invocation. -/
theorem async_region_body_not_rescanned (L : Op → Bool) (body : List Op) :
    (walkOp L (Op.asyncExec body)).1 =
      Op.asyncExec (body.map (fun op => (walkOp L op).1)) ∧
    ∀ op ∈ body, topSig (walkOp L op).1 = topSig op := by
  constructor
  · simp [walkOp, walkBlockOps_eq_map]
  · intro op _
    exact walkOp_topSig L op

/-- Witness for C5: a body consisting of one legal operation is returned
untouched, keeping its signature. -/
theorem async_region_body_not_rescanned_witness :
    (walkOp (fun _ => true) (Op.asyncExec [Op.prim 3 []])).1 =
      Op.asyncExec [Op.prim 3 []] ∧
    topSig (walkOp (fun _ => true) (Op.prim 3 [])).1 = topSig (Op.prim 3 []) := by
  have h := async_region_body_not_rescanned (fun _ => true) [Op.prim 3 []]
  refine ⟨?_, h.2 (Op.prim 3 []) (List.mem_cons_self _ _)⟩
  rw [h.1]
  simp [walkOp]

theorem scanGo_mem (L : Op → Bool) (ops : List Op) :
    ∀ run o, o ∈ (scanGo L run ops).1 →
      o ∈ run ++ ops ∨ ∃ b, o = Op.asyncExec b ∧ b ≠ [] := by
  induction ops with
  | nil =>
    intro run o ho
    rw [scanGo] at ho
    left
    simpa using ho
  | cons op rest ih =>
    intro run o ho
    by_cases hop : L op = true
    · rw [scanGo] at ho
      simp only [hop, if_true] at ho
      rcases ih (run ++ [op]) o ho with h | h
      · left
        simp only [List.mem_append, List.mem_cons, List.mem_singleton] at h ⊢
        tauto
      · right
        exact h
    · have hop' : L op = false := by
        simp at hop
        exact hop
      rw [scanGo] at ho
      simp only [hop', if_false, Bool.false_eq_true] at ho
      cases run with
      | nil =>
        simp only [List.isEmpty_nil, if_true] at ho
        rcases List.mem_cons.mp ho with rfl | hmem
        · left
          simp
        · rcases ih [] o hmem with h | h
          · left
            simp only [List.nil_append] at h ⊢
            simp [List.mem_cons, h]
          · right
            exact h
      | cons a run' =>
        simp only [List.isEmpty_cons, if_false] at ho
        rcases List.mem_cons.mp ho with rfl | ho2
        · right
          exact ⟨a :: run', rfl, List.cons_ne_nil a run'⟩
        · rcases List.mem_cons.mp ho2 with rfl | hmem
          · left
            simp
          · rcases ih [] o hmem with h | h
            · left
              simp only [List.nil_append] at h
              simp [List.mem_cons, List.mem_append, h]
            · right
              exact h

/-- C10: every async-execute region created by the Region Outliner's block
scan contains at least one operation: an `asyncExec` occurring in the scan's
output either already occurred, as the same operation, in the input block, or
is freshly created and its body is nonempty. -/
theorem outlined_region_body_nonempty (L : Op → Bool) (ops : List Op)
    (b : List Op) (h : Op.asyncExec b ∈ (matchAndRewriteBlock L ops).1) :
    Op.asyncExec b ∈ ops ∨ b ≠ [] := by
  rcases scanGo_mem L ops [] (Op.asyncExec b) h with hm | ⟨b2, hb2, hne⟩
  · left
    simpa using hm
  · right
    have hbb : b = b2 := by injection hb2
    rw [hbb]
    exact hne

/-- Witness for C10: scanning `[legal, illegal]` creates a region with the
one legal operation inside, and that body is nonempty. -/
theorem outlined_region_body_nonempty_witness :
    Op.asyncExec [Op.prim 0 []] ∈
      (matchAndRewriteBlock
        (fun op => match op with | Op.prim 0 _ => true | _ => false)
        [Op.prim 0 [], Op.prim 1 []]).1 ∧
    (Op.asyncExec [Op.prim 0 []] ∈ [Op.prim 0 [], Op.prim 1 []] ∨
      ([Op.prim 0 []] : List Op) ≠ []) := by
  have hmem : Op.asyncExec [Op.prim 0 []] ∈
      (matchAndRewriteBlock
        (fun op => match op with | Op.prim 0 _ => true | _ => false)
        [Op.prim 0 [], Op.prim 1 []]).1 := by
    simp [matchAndRewriteBlock, scanGo]
  exact ⟨hmem, outlined_region_body_nonempty _ _ _ hmem⟩

theorem Outlines_refl (l : List Op) : Outlines l l := by
  induction l with
  | nil => exact Outlines.nil
  | cons a l ih => exact Outlines.keep a ih

theorem scanGo_outlines (L : Op → Bool) (ops : List Op) :
    ∀ run, Outlines (run ++ ops) (scanGo L run ops).1 := by
  induction ops with
  | nil =>
    intro run
    rw [scanGo]
    simpa using Outlines_refl run
  | cons op rest ih =>
    intro run
    by_cases hop : L op = true
    · rw [scanGo]
      simp only [hop, if_true]
      have h := ih (run ++ [op])
      rw [List.append_assoc] at h
      simpa using h
    · have hop' : L op = false := by
        simp at hop
        exact hop
      rw [scanGo]
      simp only [hop', if_false, Bool.false_eq_true]
      cases run with
      | nil =>
        simp only [List.isEmpty_nil, if_true, List.nil_append]
        exact Outlines.keep op (by simpa using ih [])
      | cons a run' =>
        simp only [List.isEmpty_cons, if_false]
        exact Outlines.extract (a :: run') (List.cons_ne_nil a run')
          (Outlines.keep op (by simpa using ih []))

theorem opsMoved_append_split {a b1 b2 : List Op}
    (h : OpsMoved a (b1 ++ b2)) :
    ∃ a1 a2, a = a1 ++ a2 ∧ OpsMoved a1 b1 ∧ OpsMoved a2 b2 := by
  induction b1 generalizing a with
  | nil => exact ⟨[], a, rfl, OpsMoved.nil, by simpa using h⟩
  | cons x b1 ih =>
    cases h with
    | cons hx hrest =>
      rcases ih hrest with ⟨a1, a2, rfl, h1, h2⟩
      exact ⟨_ :: a1, a2, rfl, OpsMoved.cons hx h1, h2⟩

theorem opsMoved_then_outlines {b c : List Op} (hbc : Outlines b c) :
    ∀ {a : List Op}, OpsMoved a b → BlockMoved a c := by
  induction hbc with
  | nil =>
    intro a hab
    cases hab
    exact BlockMoved.nil
  | keep x hio ih =>
    intro a hab
    cases hab with
    | cons hx hrest => exact BlockMoved.keep hx (ih hrest)
  | extract run hne hio ih =>
    intro a hab
    rcases opsMoved_append_split hab with ⟨a1, a2, rfl, h1, h2⟩
    exact BlockMoved.extract hne h1 (ih h2)

mutual

theorem walkOp_opMoved (L : Op → Bool) (op : Op) :
    OpMoved op (walkOp L op).1 := by
  cases op with
  | prim i os =>
    simp only [walkOp]
    exact OpMoved.prim i os
  | regionHost i os body =>
    simp only [walkOp]
    exact OpMoved.regionHost i os
      (opsMoved_then_outlines (scanGo_outlines L (walkBlockOps L body).1 [])
        (walkBlockOps_opsMoved L body))
  | asyncExec body =>
    simp only [walkOp]
    exact OpMoved.asyncExec (walkBlockOps_opsMoved L body)

theorem walkBlockOps_opsMoved (L : Op → Bool) (ops : List Op) :
    OpsMoved ops (walkBlockOps L ops).1 := by
  cases ops with
  | nil =>
    simp only [walkBlockOps]
    exact OpsMoved.nil
  | cons op rest =>
    simp only [walkBlockOps]
    exact OpsMoved.cons (walkOp_opMoved L op) (walkBlockOps_opsMoved L rest)

end

/-- C3: one Region Outliner pass over a function moves operations but never
copies, duplicates or erases them: the rewritten function body is related to
the original by `BlockMoved`, so every original operation occurs exactly once
in the result, verbatim (same kind, id and operand list — every operand still
names the same producing value), in its original relative order, with some
contiguous nonempty runs moved (not copied) into freshly created
async-execute region hosts, and nested blocks rewritten the same way. -/
theorem outliner_moves_never_copies (L : Op → Bool) (f : FuncOp) :
    BlockMoved f.body ((matchAndRewriteFunc L f).1).body := by
  simp only [matchAndRewriteFunc]
  exact opsMoved_then_outlines (scanGo_outlines L (walkBlockOps L f.body).1 [])
    (walkBlockOps_opsMoved L f.body)

/-- C2 counterexample: a view of a buffer with no size operands, a
compile-time-constant byte offset equal to zero, destination byte size 1
(`i8`) and source byte size 2 (`i16`) is not left unconverted — the rule
matches and rewrites it into the `tfrt_gpu.mem.view` sub-view primitive. -/
theorem view_fold_zero_offset_size_mismatch_cex :
    (foldMemrefView
        ⟨⟨0, true, none⟩, [], ⟨1, false, some 0⟩,
          MType.int 8, MType.int 16⟩).isMatchFailure = false ∧
    foldMemrefView
        ⟨⟨0, true, none⟩, [], ⟨1, false, some 0⟩, MType.int 8, MType.int 16⟩ =
      ViewOutcome.replacedWithMemView ⟨0, true, none⟩ ⟨1, false, some 0⟩ 1 := by
  constructor <;> rfl

/-- C2 (amended): for a view whose converted source is a buffer value, the
rule folds it to a no-op (all uses replaced by the source buffer) iff it has
no size operands, both byte sizes are computed, the byte offset is a
compile-time constant equal to zero, and the two computed byte sizes agree;
but when the offset is a known-zero constant and the sizes differ the rule
does NOT fail to match: it rewrites the operation into the sub-view
primitive (`tfrt_gpu.mem.view`) with the destination byte size. -/
theorem view_fold_amended (op : ViewOp) :
    (foldMemrefView op = ViewOutcome.folded op.source ↔
      op.source.isBuffer = true ∧ op.sizes = [] ∧
      ∃ s, GetTypeSizeBytes op.dstType = some s ∧
        GetTypeSizeBytes op.srcType = some s ∧
        op.byteShift.definingConstIndex = some 0) ∧
    (op.source.isBuffer = true → op.sizes = [] →
      ∀ dst src, GetTypeSizeBytes op.dstType = some dst →
        GetTypeSizeBytes op.srcType = some src →
        op.byteShift.definingConstIndex = some 0 → src ≠ dst →
        foldMemrefView op =
          ViewOutcome.replacedWithMemView op.source op.byteShift dst) := by
  by_cases hbuf : op.source.isBuffer = true
  · by_cases hsz : op.sizes = []
    · cases hdst : GetTypeSizeBytes op.dstType with
      | none =>
        constructor
        · simp [foldMemrefView, hbuf, hsz, hdst]
        · intro _ _ dst src hd _ _ _
          cases hd
      | some dst0 =>
        cases hsrc : GetTypeSizeBytes op.srcType with
        | none =>
          constructor
          · simp [foldMemrefView, hbuf, hsz, hdst, hsrc]
          · intro _ _ dst src _ hs _ _
            cases hs
        | some src0 =>
          by_cases hcond : op.byteShift.definingConstIndex = some 0 ∧ src0 = dst0
          · have hout : foldMemrefView op = ViewOutcome.folded op.source := by
              simp only [foldMemrefView, hbuf, hsz, hdst, hsrc]
              simp [hcond]
            constructor
            · rw [hout]
              constructor
              · intro _
                exact ⟨hbuf, hsz, dst0, rfl, by rw [hcond.2], hcond.1⟩
              · intro _
                rfl
            · intro _ _ dst src hd hs hc hne
              injection hd with hd
              injection hs with hs
              exfalso
              apply hne
              rw [← hd, ← hs]
              exact hcond.2
          · have hout : foldMemrefView op =
                ViewOutcome.replacedWithMemView op.source op.byteShift dst0 := by
              simp only [foldMemrefView, hbuf, hsz, hdst, hsrc]
              simp [hcond]
            constructor
            · rw [hout]
              constructor
              · intro h
                cases h
              · rintro ⟨_, _, s, hd, hs, hc⟩
                injection hd with hd
                injection hs with hs
                exact absurd ⟨hc, by rw [hs, hd]⟩ hcond
            · intro _ _ dst src hd hs hc hne
              injection hd with hd
              rw [← hd]
              exact hout
    · have hout : foldMemrefView op = ViewOutcome.matchFailure "expected no sizes" := by
        have hsz' : op.sizes.isEmpty = false := by
          cases hszs : op.sizes with
          | nil => exact absurd hszs hsz
          | cons x xs => simp
        simp [foldMemrefView, hbuf, hsz']
      constructor
      · rw [hout]
        constructor
        · intro h
          cases h
        · rintro ⟨_, h, _⟩
          exact absurd h hsz
      · intro _ h
        exact absurd h hsz
  · have hbuf' : op.source.isBuffer = false := by
      simp at hbuf
      exact hbuf
    have hout : foldMemrefView op =
        ViewOutcome.matchFailure "expected BufferType source" := by
      simp [foldMemrefView, hbuf']
    constructor
    · rw [hout]
      constructor
      · intro h
        cases h
      · rintro ⟨h, _, _⟩
        exact absurd h hbuf
    · intro h
      exact absurd h hbuf

/-- Witness for C2 (amended): a size-preserving zero-offset view folds to its
source; the size-changing one from the counterexample becomes a sub-view. -/
theorem view_fold_amended_witness :
    foldMemrefView
        ⟨⟨0, true, none⟩, [], ⟨1, false, some 0⟩, MType.int 8, MType.int 8⟩ =
      ViewOutcome.folded ⟨0, true, none⟩ ∧
    foldMemrefView
        ⟨⟨0, true, none⟩, [], ⟨1, false, some 0⟩, MType.int 16, MType.int 8⟩ =
      ViewOutcome.replacedWithMemView ⟨0, true, none⟩ ⟨1, false, some 0⟩ 2 := by
  constructor
  · exact (view_fold_amended _).1.mpr ⟨rfl, rfl, 1, rfl, rfl, rfl⟩
  · exact (view_fold_amended _).2 rfl rfl 2 1 rfl rfl rfl (by decide)

/-- C6 counterexample: `shaped other 1` (for example `tensor<1xindex>`) is a
composite type — one of the three kinds the claim names — and yet the
byte-size computation still aborts, on the unsupported element type. -/
theorem type_size_three_kind_cex :
    isThreeKind (MType.shaped MType.other 1) = true ∧
    GetTypeSizeBytes (MType.shaped MType.other 1) = none :=
  ⟨rfl, rfl⟩

/-- C6 (amended): applied to a type that is none of scalar/composite/complex
the byte-size computation aborts and returns no size; and under the stronger
recursive precondition `SizedType` — scalars, and shaped/complex types built
over such types all the way down — the abort branch is unreachable and a
size is always returned.  (Being one of the three kinds at the top level
alone is not sufficient: see the counterexample.) -/
theorem type_size_amended :
    (∀ t, isThreeKind t = false → GetTypeSizeBytes t = none) ∧
    (∀ t, SizedType t → ∃ n, GetTypeSizeBytes t = some n) := by
  constructor
  · intro t ht
    cases t with
    | int w => exact absurd ht (by simp [isThreeKind])
    | float w => exact absurd ht (by simp [isThreeKind])
    | shaped e n => exact absurd ht (by simp [isThreeKind])
    | complex e => exact absurd ht (by simp [isThreeKind])
    | other => rfl
  · intro t h
    induction h with
    | int w => exact ⟨_, rfl⟩
    | float w => exact ⟨_, rfl⟩
    | shaped n ht ih =>
      rcases ih with ⟨m, hm⟩
      refine ⟨m * n % 2 ^ 32, ?_⟩
      simp [GetTypeSizeBytes, hm]
    | complex ht ih =>
      rcases ih with ⟨m, hm⟩
      refine ⟨m * 2 % 2 ^ 32, ?_⟩
      simp [GetTypeSizeBytes, hm]

/-- Witness for C6 (amended): the opaque type aborts; `i32` gets a size. -/
theorem type_size_amended_witness :
    GetTypeSizeBytes MType.other = none ∧
    ∃ n, GetTypeSizeBytes (MType.int 32) = some n :=
  ⟨type_size_amended.1 MType.other rfl,
    type_size_amended.2 (MType.int 32) (SizedType.int 32)⟩

/-- C7: for a reinterpret-cast whose converted source is a buffer value, the
rule folds it to a no-op (all uses replaced by the source buffer) iff it has
zero dynamic offset operands and every static offset attribute equals zero;
in every other case it fails to match and leaves the operation unchanged. -/
theorem reinterpret_cast_fold_iff (op : ReinterpretCastOp)
    (hbuf : op.source.isBuffer = true) :
    (foldMemrefReinterpretCast op = CastOutcome.folded op.source ↔
      op.offsets = [] ∧ ∀ a ∈ op.staticOffsets, a = 0) ∧
    (¬ (op.offsets = [] ∧ ∀ a ∈ op.staticOffsets, a = 0) →
      foldMemrefReinterpretCast op =
        CastOutcome.matchFailure "expected static zero offsets") := by
  have key : ((!op.offsets.isEmpty || op.staticOffsets.any (fun a => a != 0)) = false) ↔
      (op.offsets = [] ∧ ∀ a ∈ op.staticOffsets, a = 0) := by
    simp [List.isEmpty_iff]
  by_cases hc : (!op.offsets.isEmpty || op.staticOffsets.any (fun a => a != 0)) = true
  · have hout : foldMemrefReinterpretCast op =
        CastOutcome.matchFailure "expected static zero offsets" := by
      simp [foldMemrefReinterpretCast, hbuf, hc]
    constructor
    · rw [hout]
      constructor
      · intro h
        cases h
      · intro hconds
        exfalso
        rw [← key] at hconds
        rw [hconds] at hc
        cases hc
    · intro _
      exact hout
  · have hc' : (!op.offsets.isEmpty || op.staticOffsets.any (fun a => a != 0)) = false := by
      simp at hc
      exact key.mpr hc
    have hout : foldMemrefReinterpretCast op = CastOutcome.folded op.source := by
      simp [foldMemrefReinterpretCast, hbuf, hc']
    have hconds := key.mp hc'
    constructor
    · rw [hout]
      constructor
      · intro _
        exact hconds
      · intro _
        rfl
    · intro hn
      exact absurd hconds hn

/-- Witness for C7: a cast of a buffer with no dynamic offsets and static
offsets `[0, 0]` folds to its source. -/
theorem reinterpret_cast_fold_iff_witness :
    foldMemrefReinterpretCast ⟨⟨0, true, none⟩, [], [0, 0]⟩ =
      CastOutcome.folded ⟨0, true, none⟩ :=
  ((reinterpret_cast_fold_iff ⟨⟨0, true, none⟩, [], [0, 0]⟩ rfl).1).mpr
    ⟨rfl, by decide⟩

/-- C8: the legality rule registered for `tfrt.call` judges a call legal iff
it has zero results; a call with one or more results is judged illegal, no
matter what its operand or result types are. -/
theorem call_legal_iff_no_results (op : CallOp) :
    callOpIsLegal op = true ↔ op.resultTypes = [] := by
  simp [callOpIsLegal, List.length_eq_zero]

/-- Witness for C8: a call with no results is legal. -/
theorem call_legal_iff_no_results_witness :
    callOpIsLegal ⟨[], []⟩ = true :=
  (call_legal_iff_no_results ⟨[], []⟩).mpr rfl

/-- C9: one pass of the alloc/dealloc rewriting over a block rewrites every
generic allocation (stack or heap) into the target-model allocation primitive
with empty async-dependency, dynamic-size and symbol-operand lists, and every
generic deallocation into the target-model deallocation primitive on the same
buffer with an empty async-dependency list and no completion token; each
operation is rewritten exactly once (the pass is an elementwise map, lengths
preserved) and no generic alloc/alloca/dealloc remains afterwards.  The
patterns never inspect the shape, so in particular every statically-shaped
operation is rewritten. -/
theorem alloc_dealloc_rewrite_total (ops : List MemOp) :
    (allocDeallocPass ops).length = ops.length ∧
    (∀ o ∈ allocDeallocPass ops, o.isGenericForm = false) ∧
    (∀ ty, applyAllocDeallocPatterns (MemOp.memrefAlloc ty) =
      MemOp.gpuAlloc ty [] [] []) ∧
    (∀ ty, applyAllocDeallocPatterns (MemOp.memrefAlloca ty) =
      MemOp.gpuAlloc ty [] [] []) ∧
    (∀ b, applyAllocDeallocPatterns (MemOp.memrefDealloc b) =
      MemOp.gpuDealloc false [] b) := by
  refine ⟨by simp [allocDeallocPass], ?_, fun ty => rfl, fun ty => rfl, fun b => rfl⟩
  intro o ho
  rcases List.mem_map.mp ho with ⟨x, _, rfl⟩
  cases x <;> rfl

/-- Witness for C9: a statically-shaped `memref.alloc` is rewritten into a
`gpu.alloc`, which is no longer in generic form. -/
theorem alloc_dealloc_rewrite_total_witness :
    MemOp.isGenericForm
      (applyAllocDeallocPatterns (MemOp.memrefAlloc (MType.int 32))) = false := by
  have h := alloc_dealloc_rewrite_total [MemOp.memrefAlloc (MType.int 32)]
  exact h.2.1 (applyAllocDeallocPatterns (MemOp.memrefAlloc (MType.int 32)))
    (by simp [allocDeallocPass])

end GpuAsync
